import Mathlib

/-!
Verification of the streaming numerical engine of the openseize repository
(core/numerical.py).  Signals are modelled as lists of samples along the
processing axis (the code applies every operation independently along the
chosen axis of a float ndarray, so a single axis of exact rationals is the
shallow embedding).  Sample values live in an arbitrary commutative ring so
that general theorems cover the rational and real instances while concrete
runs evaluate over the integers.  Producers deliver a signal as consecutive
chunks; by the
producer chunk-size invariance of the spec, a producer with chunksize L over
signal xs yields the slices xs[i*L : (i+1)*L].
-/

variable {α : Type} [CommRing α]

/-- Pointwise sum of two lists, keeping the tail of the longer one.  This is
the embedding of numpy elementwise addition where one operand is written into
a prefix slice of the other, as in the statement y[0:M-1] += overlap of
oaconvolve (numerical.py line 160), whose left operand is at least as long as
the right one in every reachable state. -/
def addLong : List α → List α → List α
  | [], ys => ys
  | xs, [] => xs
  | x :: xs, y :: ys => (x + y) :: addLong xs ys

/-- Discrete linear convolution of two finite signals, the mathematical
reference that np.convolve and the single-pass FFT convolution compute.
Defined by the standard recursion conv (a :: x) w = a*w + (0 :: conv x w). -/
def conv : List α → List α → List α
  | [], _ => []
  | a :: x, w => addLong (w.map fun c => a * c) ((0 : α) :: conv x w)

/-- Folding (aliasing) of a sequence modulo n: entry k is the sum of the
entries at k, k+n, k+2n, ... .  This is how a length-n DFT sees a longer
signal. -/
def foldModN (n : ℕ) (ys : List α) : List α :=
  (List.range n).map fun k =>
    ((List.range (ys.length / n + 1)).map fun j => ys.getD (k + j * n) 0).sum

/-- Semantics of the line fft.ifft(fft.fft(x, nfft) * H).real of oaconvolve
(numerical.py line 146, H = fft.fft(win, nfft)): for real inputs the
pointwise product of two length-n DFTs is the DFT of the circular
convolution, i.e. of the linear convolution aliased modulo n. -/
def circConv (n : ℕ) (x w : List α) : List α := foldModN n (conv x w)

/-- Embedding of optimal_nffts (numerical.py line 13):
int(8 * 2 ** np.ceil(np.log2(len(arr)))).  For M >= 1 the exponent
ceil(log2 M) is the least k with M <= 2^k, computed here by search so the
definition evaluates by kernel reduction. -/
def optimal_nffts (M : ℕ) : ℕ :=
  8 * 2 ^ (((List.range (M + 1)).find? fun k => decide (M ≤ 2 ^ k)).getD 0)

/-- The chunks a producer with chunksize L yields over signal xs: chunk i is
xs[i*L : (i+1)*L], and the number of chunks is ceil(len(xs) / L) exactly as
computed by oaconvolve (numerical.py line 132). -/
def chunkList (L : ℕ) (xs : List α) : List (List α) :=
  (List.range ((xs.length + L - 1) / L)).map fun i => (xs.drop (i * L)).take L

/-- Convolution boundary modes, numerical.py modes tuple (line 80). -/
inductive Mode where
  | full : Mode
  | same : Mode
  | valid : Mode
deriving DecidableEq, Repr

/-- Embedding of slice_along_axis(arr, start, stop, axis): the slice
arr[start:stop] along the processing axis (core/arraytools.py, used
throughout numerical.py; semantics of a numpy basic slice). -/
def slice_along_axis (arr : List α) (start stop : ℕ) : List α :=
  (arr.take stop).drop start

/-- Embedding of convolve_slicer (numerical.py lines 19-59): applies a
boundary mode to a full convolution, m and n being the two input lengths
along the axis.  This is the non-streaming, single-pass mode convention
(identical to np.convolve modes). -/
def convolve_slicer (arr : List α) (m n : ℕ) (mode : Mode) : List α :=
  let p := max m n
  let q := min m n
  match mode with
  | Mode.full => arr
  | Mode.same => slice_along_axis arr ((q - 1) / 2) ((q - 1) / 2 + p)
  | Mode.valid => slice_along_axis arr (q - 1) (n + m - 1 - (q - 1))

/-- Embedding of the slice cuts of _oa_mode (numerical.py lines 86-96) for
the first yielded segment (idx = 0). -/
def oaModeFirst (M : ℕ) (mode : Mode) (seg : List α) : List α :=
  match mode with
  | Mode.full => seg
  | Mode.same => seg.drop ((M - 1) / 2)
  | Mode.valid => seg.drop (M - 1)

/-- Embedding of the slice cuts of _oa_mode (numerical.py lines 86-96) for
the last yielded segment (idx > 0), ns being the segment length along axis. -/
def oaModeLast (M : ℕ) (mode : Mode) (seg : List α) : List α :=
  match mode with
  | Mode.full => seg
  | Mode.same => seg.take (seg.length - (M - 1) / 2)
  | Mode.valid => seg.take (seg.length - (M - 1))

/-- Applies g to the last element of a list of segments, as _oa_mode is
applied to segment nsegments-1 of oaconvolve. -/
def mapLastOnly (g : List α → List α) : List (List α) → List (List α)
  | [] => []
  | [s] => [g s]
  | s :: s2 :: rest => s :: mapLastOnly g (s2 :: rest)

/-- Applies f to the first segment and g to the last segment, leaving middle
segments alone: the boundary-mode application of oaconvolve (lines 163-165),
which calls _oa_mode only for segment_num 0 and nsegments-1. -/
def applyEnds (f g : List α → List α) : List (List α) → List (List α)
  | [] => []
  | s :: rest => f s :: mapLastOnly g rest

/-- The per-segment overlap-add loop of oaconvolve (numerical.py lines
141-167) over the list of producer chunks, carrying the overlap state.  For a
non-final chunk c (line 149): y = circular convolution of c padded with M-1
zeros, split at L into the yielded part and the new overlap; for the final
chunk (line 152): y is cut to len(c) + M - 1 points.  The carried overlap is
added into the first M-1 points of the yielded part (line 160). -/
def oaSegs (nfft M L : ℕ) (w : List α) : List α → List (List α) → List (List α)
  | _, [] => []
  | ov, [c] =>
      [addLong ov ((circConv nfft (c ++ List.replicate (M - 1) 0) w).take (c.length + M - 1))]
  | ov, c :: c2 :: rest =>
      addLong ov ((circConv nfft (c ++ List.replicate (M - 1) 0) w).take L) ::
        oaSegs nfft M L w ((circConv nfft (c ++ List.replicate (M - 1) 0) w).drop L) (c2 :: rest)

/-- Embedding of oaconvolve (numerical.py lines 99-170) with an explicit FFT
block size nfft.  The producer is rechunked to the stride L = nfft - M + 1
(line 140), each chunk is convolved and overlap-added, and the boundary mode
is applied to the first and last segments.  When ceil(N / L) = 1 the single
chunk is both first and last: the loop takes the else branch at line 152 and
then executes overlap = new_overlap at line 161 with new_overlap never
assigned, raising UnboundLocalError before yielding anything; that run is
embedded as none. -/
def oaconvolveWith (nfft : ℕ) (xs w : List α) (mode : Mode) : Option (List α) :=
  let M := w.length
  let L := nfft - M + 1
  let segs := chunkList L xs
  if segs.length = 1 then none
  else
    some ((applyEnds (oaModeFirst M mode) (oaModeLast M mode)
      (oaSegs nfft M L w (List.replicate (M - 1) 0) segs)).flatten)

/-- oaconvolve proper: the FFT block size is optimal_nffts(win)
(numerical.py line 126). -/
def oaconvolve (xs w : List α) (mode : Mode) : Option (List α) :=
  oaconvolveWith (optimal_nffts w.length) xs w mode

/-- One normalized (a0 = 1) second-order section, a row of the nsections x 6
sos array fed to scipy.signal.sosfilt by numerical.sosfilt. -/
structure Sos (α : Type) where
  b0 : α
  b1 : α
  b2 : α
  a1 : α
  a2 : α
deriving DecidableEq, Repr

/-- One sample step of a second-order section in direct form II transposed,
the documented per-sample recurrence of scipy.signal.sosfilt:
y = b0*x + z0; z0 becomes b1*x - a1*y + z1; z1 becomes b2*x - a2*y. -/
def sosStep (s : Sos α) (st : α × α) (x : α) : α × (α × α) :=
  let y := s.b0 * x + st.1
  (y, (s.b1 * x - s.a1 * y + st.2, s.b2 * x - s.a2 * y))

/-- Filtering a signal through one section, threading the two-element section
state and returning the final state. -/
def sosfiltSection (s : Sos α) : α × α → List α → List α × (α × α)
  | st, [] => ([], st)
  | st, x :: xs =>
      let p := sosStep s st x
      let r := sosfiltSection s p.2 xs
      (p.1 :: r.1, r.2)

/-- scipy.signal.sosfilt over a cascade of sections: the output of each
section feeds the next, and the per-section states are threaded and returned
(the z of numerical.sosfilt, shape nsections x ... x 2). -/
def sosfiltCascade : List (Sos α) → List (α × α) → List α → List α × List (α × α)
  | [], _, xs => (xs, [])
  | _ :: _, [], xs => (xs, [])
  | s :: ss, z :: zs, xs =>
      let r := sosfiltSection s z xs
      let r2 := sosfiltCascade ss zs r.1
      (r2.1, r.2 :: r2.2)

/-- The chunk loop of numerical.sosfilt (numerical.py lines 197-199): each
produced chunk is filtered through the cascade with the carried state z, the
outputs are yielded in order (concatenated here), and the state flows
forward. -/
def sosfiltChunks (ss : List (Sos α)) : List (α × α) → List (List α) → List α
  | _, [] => []
  | z, c :: rest =>
      let r := sosfiltCascade ss z c
      r.1 ++ sosfiltChunks ss r.2 rest

/-- Embedding of numerical.sosfilt with zi=None (numerical.py lines 174-199)
over the chunks yielded by the producer: the initial condition is zeros
(line 195). -/
def sosfilt (ss : List (Sos α)) (chunks : List (List α)) : List α :=
  sosfiltChunks ss (List.replicate ss.length ((0 : α), (0 : α))) chunks

/-- Fueled while loop of _spectra_estimatives (numerical.py lines 545-553 and
564-569): while the FIFO holds at least nfft samples, emit the first nfft
samples as a window and release stride samples.  Returns the emitted windows
and the remaining queue.  The fuel only serves termination; it is always
called with fuel larger than the queue length, which suffices since each
pass removes stride >= 1 samples. -/
def emitAux : ℕ → ℕ → ℕ → List α → List (List α) × List α
  | 0, _, _, q => ([], q)
  | fuel + 1, nfft, stride, q =>
      if nfft ≤ q.length ∧ 0 < nfft ∧ 0 < stride then
        let p := emitAux fuel nfft stride (q.drop stride)
        (q.take nfft :: p.1, p.2)
      else ([], q)

/-- Emit all full windows currently in the FIFO queue, returning them and
the remaining queue. -/
def emitWindows (nfft stride : ℕ) (q : List α) : List (List α) × List α :=
  emitAux (q.length + 1) nfft stride q

/-- The windows obtained by draining a queue to exhaustion (the for-else
branch of _spectra_estimatives, lines 561-569). -/
def drainWindows (nfft stride : ℕ) (q : List α) : List (List α) :=
  (emitWindows nfft stride q).1

/-- The full FIFO loop of _spectra_estimatives (numerical.py lines 540-569)
over the chunks yielded by the producer.  The FIFOArray of core/queues.py is
not under src and is modelled from the spec (section 4.2): an axis-aligned
buffer where put appends samples, qsize is the buffered sample count, and
get releases chunksize = stride samples from the front.  Before each put the
inner while loop emits every full window; after the last chunk the queue is
drained. -/
def fifoProcess (nfft stride : ℕ) : List α → List (List α) → List (List α)
  | q, [] => drainWindows nfft stride q
  | q, c :: rest =>
      (emitWindows nfft stride q).1 ++
        fifoProcess nfft stride ((emitWindows nfft stride q).2 ++ c) rest

/-- noverlap = int(nfft * overlap) of _spectra_estimatives (line 537); the
Python int() truncation equals the floor for the nonnegative overlaps the
code accepts. -/
def noverlapOf (nfft : ℕ) (overlap : ℚ) : ℕ := (⌊(nfft : ℚ) * overlap⌋).toNat

/-- stride = nfft - noverlap between successive window starts (line 538). -/
def strideOf (nfft : ℕ) (overlap : ℚ) : ℕ := nfft - noverlapOf nfft overlap

/-- The data windows welch feeds to the per-window periodogram: the FIFO
engine run over the producer chunks with no padding (numerical.py lines
643-657 delegate straight to _spectra_estimatives). -/
def welchWindows (chunks : List (List α)) (nfft : ℕ) (overlap : ℚ) : List (List α) :=
  fifoProcess nfft (strideOf nfft overlap) [] chunks

/-- The frequency vector np.fft.rfftfreq(nfft, 1/fs) of welch and stft
(numerical.py lines 648 and 769): the nfft/2 + 1 nonnegative frequencies
k * fs / nfft. -/
def rfftfreq (nfft : ℕ) (fs : ℚ) : List ℚ :=
  (List.range (nfft / 2 + 1)).map fun k : ℕ => (k : ℚ) * fs / (nfft : ℚ)

/-- The data windows stft feeds to the per-window modified_dft (numerical.py
lines 746-766).  The source producer is optionally padded: boundary extends
both ends by nfft/2 zeros (line 755), and padded appends stride zeros when
the original sample count is not divisible by stride (lines 759-762; note
nsamples is taken from the unpadded producer).  pad_producer of
core/producer.py is not under src and is modelled from the spec: a padded
producer logically prepends/appends constant-valued samples. -/
def stftSegments (xs : List α) (nfft : ℕ) (overlap : ℚ) (boundary padded : Bool) :
    List (List α) :=
  let stride := strideOf nfft overlap
  let d1 := if boundary then
    List.replicate (nfft / 2) (0 : α) ++ xs ++ List.replicate (nfft / 2) (0 : α) else xs
  let amt := if padded then (if xs.length % stride ≠ 0 then stride else 0) else 0
  drainWindows nfft stride (d1 ++ List.replicate amt 0)

/-- The doubling step of periodogram (numerical.py lines 505-515) applied to
the squared one-sided spectrum s of length nfft/2 + 1: for odd nfft the
slice s[1:] is doubled, for even nfft the slice s[1:-1] is doubled. -/
def doubleSpectrum (nfft : ℕ) (s : List α) : List α :=
  if nfft % 2 = 1 then
    s.take 1 ++ (s.drop 1).map (fun v => 2 * v)
  else
    s.take 1 ++ ((s.drop 1).take (s.length - 2)).map (fun v => 2 * v) ++
      s.drop (s.length - 1)

/-- Embedding of periodogram (numerical.py lines 443-517) downstream of the
modified DFT: the DFT values (whose transcendental entries are taken as
input, as real and imaginary parts) are turned into the squared magnitude
np.real(arr)**2 + np.imag(arr)**2 (line 503) and every bin except DC (and
Nyquist for even nfft) is doubled. -/
def periodogram (nfft : ℕ) (dft : List (α × α)) : List α :=
  doubleSpectrum nfft (dft.map fun z => z.1 ^ 2 + z.2 ^ 2)

/-- The working chunk size of polyphase_resample (numerical.py lines
296-309): the requested chunksize is capped at one third of the signal
length (integer division) and then rounded with int(np.ceil(csize / M) * M)
to a multiple of the decimation factor M when not already divisible. -/
def workingChunksize (N chunksize M : ℕ) : ℕ :=
  let csize := if N / 3 < chunksize then N / 3 else chunksize
  if csize % M > 0 then ((csize + M - 1) / M) * M else csize

/-- Events of a streaming run: reading (and processing) one input chunk from
the producer, yielding one output, or raising an exception. -/
inductive Ev where
  | read : Ev
  | yield : Ev
  | raise : Ev
deriving DecidableEq, Repr

/-- Event trace of the oaconvolve generator over nchunks producer chunks.
Control flow of numerical.py lines 141-170: each loop iteration first pulls
a chunk (read).  In iteration 0 the mode is checked inside _oa_mode (line
81): an invalid mode string raises ValueError there, after the chunk was
read and convolved but before any yield.  With a valid mode, a run whose
chunk count is 1 raises UnboundLocalError at line 161 (new_overlap never
assigned), and otherwise every iteration yields. -/
def oaconvolveTrace (modeValid : Bool) (nchunks : ℕ) : List Ev :=
  if nchunks = 0 then []
  else if modeValid = false then [Ev.read, Ev.raise]
  else if nchunks = 1 then [Ev.read, Ev.raise]
  else (List.replicate nchunks [Ev.read, Ev.yield]).flatten

/-- Event trace of _spectra_estimatives when the scaling string is invalid,
over the lengths of the producer chunks with q samples already buffered.
Control flow of numerical.py lines 542-569 with modified_dft raising
ValueError (line 434) at the first window: each iteration reads a chunk,
then the while loop computes the first estimate as soon as the buffer holds
nfft samples, which raises; the final drain raises likewise. -/
def spectraTraceBadScaling (nfft : ℕ) : ℕ → List ℕ → List Ev
  | q, [] => if nfft ≤ q then [Ev.raise] else []
  | q, c :: rest =>
      Ev.read :: (if nfft ≤ q then [Ev.raise] else spectraTraceBadScaling nfft (q + c) rest)

/-- Event trace of the polyphase_resample generator: the decimation-factor
check M >= pro.shape[axis] (numerical.py line 292) runs before the first
chunk is pulled, so an invalid factor raises before any read; otherwise the
generator proceeds with its read/yield loop, abstracted here as an arbitrary
event list body since no claim constrains it. -/
def polyphaseTrace (M N : ℕ) (body : List Ev) : List Ev :=
  if N ≤ M then [Ev.raise] else body

/-- Modelled from the spec: the producer of core/producer.py is not under
src.  Per spec sections 3 and 4.1 it is a lazy chunked view over a logical
sequence with attributes shape (here the data itself, whose length along the
axis is the shape entry), a mutable chunksize, and the axis. -/
structure Producer (α : Type) where
  data : List α
  chunksize : ℕ
  axis : ℕ
deriving DecidableEq, Repr

/-- The block stride L = nfft - M + 1 that oaconvolve assigns to
pro.chunksize (numerical.py lines 126-140). -/
def oaL (w : List α) : ℕ := optimal_nffts w.length - w.length + 1

/-- nsegments = ceil(N / L) of oaconvolve (numerical.py line 132). -/
def oaNsegs (p : Producer α) (w : List α) : ℕ :=
  (p.data.length + oaL w - 1) / oaL w

/-- The producer record after the consumer performs a given number of next()
pulls on the oaconvolve generator.  Mutation points in numerical.py: line
123 saves isize = pro.chunksize, line 140 sets pro.chunksize = L before the
loop (so after the first pull the chunksize is L), and line 170 writes the
saved isize back, which runs only when iteration is driven past the last
yield (the pull that raises StopIteration).  A single-segment run raises at
line 161 on its first pull, leaving the chunksize at L.  No other attribute
of the producer is assigned anywhere in oaconvolve. -/
def oaProducerAfter (p : Producer α) (w : List α) (pulls : ℕ) : Producer α :=
  if pulls = 0 then p
  else if oaNsegs p w = 1 then { p with chunksize := oaL w }
  else if pulls ≤ oaNsegs p w then { p with chunksize := oaL w }
  else { p with chunksize := p.chunksize }

@[simp] theorem addLong_nil_left (ys : List α) : addLong [] ys = ys := by
  cases ys <;> rfl

@[simp] theorem addLong_nil_right (xs : List α) : addLong xs [] = xs := by
  cases xs <;> rfl

theorem addLong_cons_cons (x y : α) (xs ys : List α) :
    addLong (x :: xs) (y :: ys) = (x + y) :: addLong xs ys := rfl

@[simp] theorem addLong_length (xs : List α) :
    ∀ ys : List α, (addLong xs ys).length = max xs.length ys.length := by
  induction xs with
  | nil => intro ys; simp
  | cons x xs ih =>
    intro ys
    cases ys with
    | nil => simp
    | cons y ys => simp [addLong_cons_cons, ih]; omega

theorem addLong_assoc (xs ys zs : List α) :
    addLong (addLong xs ys) zs = addLong xs (addLong ys zs) := by
  induction xs generalizing ys zs with
  | nil => simp
  | cons x xs ih =>
    cases ys with
    | nil => simp
    | cons y ys =>
      cases zs with
      | nil => simp
      | cons z zs => simp [addLong_cons_cons, ih, add_assoc]

theorem addLong_take (n : ℕ) (xs : List α) :
    ∀ ys : List α, (addLong xs ys).take n = addLong (xs.take n) (ys.take n) := by
  induction n generalizing xs with
  | zero => intro ys; simp
  | succ n ih =>
    intro ys
    cases xs with
    | nil => simp
    | cons x xs =>
      cases ys with
      | nil => simp
      | cons y ys => simp [addLong_cons_cons, ih]

theorem addLong_drop (n : ℕ) (xs : List α) :
    ∀ ys : List α, (addLong xs ys).drop n = addLong (xs.drop n) (ys.drop n) := by
  induction n generalizing xs with
  | zero => intro ys; simp
  | succ n ih =>
    intro ys
    cases xs with
    | nil => simp
    | cons x xs =>
      cases ys with
      | nil => simp
      | cons y ys => simp [addLong_cons_cons, ih]

theorem addLong_replicate_zero_left (n : ℕ) (xs : List α) (h : n ≤ xs.length) :
    addLong (List.replicate n 0) xs = xs := by
  induction n generalizing xs with
  | zero => simp
  | succ n ih =>
    cases xs with
    | nil => simp at h
    | cons x xs =>
      rw [List.replicate_succ, addLong_cons_cons, zero_add, ih]
      simpa using h

theorem addLong_replicate_zero_right (u : List α) (n : ℕ) (h : u.length ≤ n) :
    addLong u (List.replicate n 0) = u ++ List.replicate (n - u.length) 0 := by
  induction u generalizing n with
  | nil => simp
  | cons a u ih =>
    cases n with
    | zero => simp at h
    | succ n =>
      rw [List.replicate_succ, addLong_cons_cons, add_zero, ih n (by simpa using h)]
      simp [Nat.succ_sub_succ]

theorem addLong_replicate_zero_both (n m : ℕ) :
    addLong (List.replicate n (0 : α)) (List.replicate m 0) = List.replicate (max n m) 0 := by
  induction n generalizing m with
  | zero => simp
  | succ n ih =>
    cases m with
    | zero => simp
    | succ m =>
      rw [List.replicate_succ, List.replicate_succ, addLong_cons_cons, add_zero, ih]
      rw [show max (n + 1) (m + 1) = max n m + 1 by omega, List.replicate_succ]

theorem addLong_split (p : List α) (n : ℕ) (h : p.length ≤ n) :
    ∀ z : List α, addLong p z = addLong p (z.take n) ++ z.drop n := by
  induction p generalizing n with
  | nil => intro z; simp
  | cons a p ih =>
    intro z
    cases n with
    | zero => simp at h
    | succ n =>
      cases z with
      | nil => simp
      | cons b z =>
        rw [List.take_succ_cons, List.drop_succ_cons, addLong_cons_cons, addLong_cons_cons,
          ih n (by simpa using h) z]
        simp

@[simp] theorem conv_nil (w : List α) : conv [] w = [] := rfl

theorem conv_cons (a : α) (x w : List α) :
    conv (a :: x) w = addLong (w.map fun c => a * c) ((0 : α) :: conv x w) := rfl

theorem map_zero_mul (w : List α) :
    (w.map fun c => (0 : α) * c) = List.replicate w.length 0 := by
  induction w with
  | nil => simp
  | cons c w ih => simp [ih, List.replicate_succ]

theorem conv_length (x w : List α) (hx : x ≠ []) (hw : w ≠ []) :
    (conv x w).length = x.length + w.length - 1 := by
  have hw1 : 1 ≤ w.length := List.length_pos.mpr hw
  induction x with
  | nil => simp at hx
  | cons a x ih =>
    cases x with
    | nil => simp [conv_cons, addLong_length]; omega
    | cons b x2 =>
      rw [conv_cons, addLong_length]
      have := ih (by simp)
      simp only [List.length_cons, List.length_map] at this ⊢
      rw [this]
      have h2 : 1 ≤ x2.length + 1 := by omega
      omega

theorem conv_append (a b w : List α) :
    conv (a ++ b) w = addLong (conv a w) (List.replicate a.length (0 : α) ++ conv b w) := by
  induction a with
  | nil => simp
  | cons h t ih =>
    rw [List.cons_append, conv_cons, ih, conv_cons, addLong_assoc]
    congr 1
    rw [List.length_cons, List.replicate_succ, List.cons_append, addLong_cons_cons, add_zero]

theorem conv_replicate_zero (k : ℕ) (w : List α) (hk : 1 ≤ k) (hw : w ≠ []) :
    conv (List.replicate k (0 : α)) w = List.replicate (k + w.length - 1) 0 := by
  have hw1 : 1 ≤ w.length := List.length_pos.mpr hw
  induction k with
  | zero => omega
  | succ k ih =>
    cases Nat.eq_zero_or_pos k with
    | inl h0 =>
      subst h0
      rw [show List.replicate 1 (0 : α) = [0] from rfl]
      rw [show conv [(0 : α)] w = addLong (w.map fun c => (0 : α) * c) [(0 : α)] from rfl]
      rw [map_zero_mul, show [(0 : α)] = List.replicate 1 (0 : α) from rfl,
        addLong_replicate_zero_both]
      congr 1
      omega
    | inr hpos =>
      rw [List.replicate_succ, conv_cons, ih hpos, map_zero_mul,
        show ((0 : α) :: List.replicate (k + w.length - 1) 0)
          = List.replicate (k + w.length) 0 by rw [← List.replicate_succ]; congr 1; omega,
        addLong_replicate_zero_both]
      congr 1
      omega

theorem conv_append_replicate_zero (x w : List α) (k : ℕ) (hx : x ≠ []) (hw : w ≠ []) :
    conv (x ++ List.replicate k (0 : α)) w = conv x w ++ List.replicate k 0 := by
  have hw1 : 1 ≤ w.length := List.length_pos.mpr hw
  have hx1 : 1 ≤ x.length := List.length_pos.mpr hx
  cases Nat.eq_zero_or_pos k with
  | inl h0 => subst h0; simp
  | inr hk =>
    rw [conv_append, conv_replicate_zero k w hk hw, ← List.replicate_add,
      addLong_replicate_zero_right _ _ (by rw [conv_length x w hx hw]; omega),
      conv_length x w hx hw]
    congr 2
    omega

@[simp] theorem foldModN_length (n : ℕ) (ys : List α) : (foldModN n ys).length = n := by
  simp [foldModN]

theorem getD_append_replicate_zero (zs : List α) (t i : ℕ) (h : zs.length ≤ i) :
    (zs ++ List.replicate t (0 : α)).getD i 0 = 0 := by
  rw [List.getD_eq_getElem?_getD, List.getElem?_append_right h, List.getElem?_replicate]
  by_cases hlt : i - zs.length < t
  · simp [hlt]
  · simp [hlt]

theorem getElem?_append_replicate_zero (zs : List α) (t i : ℕ) (h : zs.length ≤ i) :
    (zs ++ List.replicate t (0 : α))[i]?.getD 0 = 0 := by
  rw [← List.getD_eq_getElem?_getD]
  exact getD_append_replicate_zero zs t i h

theorem foldModN_append_replicate (n : ℕ) (hn : 0 < n) (zs : List α) (t : ℕ)
    (hz : zs.length ≤ n) :
    foldModN n (zs ++ List.replicate t (0 : α)) = zs ++ List.replicate (n - zs.length) 0 := by
  have hsum : ∀ (k m : ℕ),
      ((List.range (m + 1)).map fun j =>
        (zs ++ List.replicate t (0 : α)).getD (k + j * n) 0).sum
      = (zs ++ List.replicate t (0 : α)).getD k 0 := by
    intro k m
    induction m with
    | zero => simp [List.range_succ]
    | succ m ih =>
      rw [List.range_succ, List.map_append, List.sum_append, ih]
      have hbig : zs.length ≤ k + (m + 1) * n := by
        have : n ≤ (m + 1) * n := Nat.le_mul_of_pos_left n (by omega)
        omega
      have hzero := getElem?_append_replicate_zero zs t (k + (m + 1) * n) hbig
      simp [hzero]
  apply List.ext_getElem
  · simp [foldModN]
    omega
  intro k hk hk2
  simp only [foldModN, List.getElem_map, List.getElem_range]
  rw [hsum]
  have hkn : k < n := by simpa [foldModN] using hk
  by_cases hzs : k < zs.length
  · rw [List.getD_eq_getElem?_getD, List.getElem?_append_left hzs,
      List.getElem_append_left hzs, List.getElem?_eq_getElem hzs]
    rfl
  · push_neg at hzs
    rw [getD_append_replicate_zero _ _ _ hzs, List.getElem_append_right (by omega)]
    simp

theorem circConv_pad (n M : ℕ) (hn : 0 < n) (c w : List α) (hc : c ≠ []) (hw : w ≠ [])
    (hM : w.length = M) (h : c.length + M - 1 ≤ n) :
    circConv n (c ++ List.replicate (M - 1) (0 : α)) w
      = conv c w ++ List.replicate (n - (c.length + M - 1)) 0 := by
  have hM1 : 1 ≤ M := by
    have := List.length_pos.mpr hw
    omega
  rw [circConv, conv_append_replicate_zero c w _ hc hw,
    foldModN_append_replicate n hn _ (M - 1)
      (by rw [conv_length c w hc hw, hM]; omega),
    conv_length c w hc hw, hM]

theorem chunkList_length (L : ℕ) (xs : List α) :
    (chunkList L xs).length = (xs.length + L - 1) / L := by
  simp [chunkList]

@[simp] theorem chunkList_nil (L : ℕ) : chunkList L ([] : List α) = [] := by
  unfold chunkList
  have h : (([] : List α).length + L - 1) / L = 0 := by
    cases L with
    | zero => simp
    | succ L => exact Nat.div_eq_of_lt (by simp)
  rw [h]
  simp

theorem chunkList_cons (L : ℕ) (xs : List α) (hL : 0 < L) (hx : xs ≠ []) :
    chunkList L xs = xs.take L :: chunkList L (xs.drop L) := by
  have hx1 : 1 ≤ xs.length := List.length_pos.mpr hx
  have hcount : (xs.length + L - 1) / L = ((xs.drop L).length + L - 1) / L + 1 := by
    rw [List.length_drop]
    rcases le_or_lt xs.length L with hle | hlt
    · have h1 : (xs.length + L - 1) / L = 1 := by
        apply Nat.div_eq_of_lt_le
        · omega
        · omega
      have h2 : (xs.length - L + L - 1) / L = 0 := Nat.div_eq_of_lt (by omega)
      omega
    · have h1 : xs.length + L - 1 = (xs.length - L + L - 1) + L := by omega
      rw [h1, Nat.add_div_right _ hL]
  unfold chunkList
  rw [hcount, List.range_succ_eq_map, List.map_cons]
  congr 1
  · simp
  · rw [List.map_map, List.length_drop]
    apply List.map_congr_left
    intro i _
    simp only [Function.comp_apply]
    rw [List.drop_drop]
    congr 2
    rw [Nat.succ_mul]
    omega

theorem chunkList_ne_nil (L : ℕ) (xs : List α) (hL : 0 < L) (hx : xs ≠ []) :
    chunkList L xs ≠ [] := by
  rw [chunkList_cons L xs hL hx]
  simp

theorem oaSegs_join (w : List α) (M L nfft : ℕ) (hM : w.length = M) (hw : w ≠ [])
    (hML : M - 1 ≤ L) (hL1 : 1 ≤ L) (hn : nfft = L + (M - 1)) :
    ∀ N : ℕ, ∀ xs ov : List α, xs.length ≤ N → xs ≠ [] → ov.length = M - 1 →
      (oaSegs nfft M L w ov (chunkList L xs)).flatten = addLong ov (conv xs w) := by
  have hM1 : 1 ≤ M := hM ▸ List.length_pos.mpr hw
  have hn0 : 0 < nfft := by omega
  intro N
  induction N with
  | zero =>
    intro xs ov hlen hne _
    exact absurd (List.length_pos.mpr hne) (by omega)
  | succ N ih =>
    intro xs ov hlen hne hov
    rcases le_or_lt xs.length L with hsmall | hlarge
    · have hdrop : xs.drop L = [] := List.drop_eq_nil_of_le hsmall
      rw [chunkList_cons L xs hL1 hne, hdrop, chunkList_nil,
        List.take_of_length_le hsmall]
      simp only [oaSegs, List.flatten_cons, List.flatten_nil, List.append_nil]
      rw [circConv_pad nfft M hn0 xs w hne hw hM (by omega)]
      rw [show xs.length + M - 1 = (conv xs w).length by
        rw [conv_length xs w hne hw, hM]]
      rw [List.take_left]
    · have hlendrop : (xs.drop L).length = xs.length - L := List.length_drop L xs
      have hbne : xs.drop L ≠ [] := by
        apply List.length_pos.mp
        omega
      have htne : xs.take L ≠ [] := by
        apply List.length_pos.mp
        rw [List.length_take]
        omega
      have htlen : (xs.take L).length = L := by
        rw [List.length_take]
        omega
      rw [chunkList_cons L xs hL1 hne, chunkList_cons L (xs.drop L) hL1 hbne]
      simp only [oaSegs, List.flatten_cons]
      rw [← chunkList_cons L (xs.drop L) hL1 hbne]
      have hy : circConv nfft (xs.take L ++ List.replicate (M - 1) (0 : α)) w
          = conv (xs.take L) w := by
        rw [circConv_pad nfft M hn0 (xs.take L) w htne hw hM (by omega), htlen]
        rw [show nfft - (L + M - 1) = 0 by omega]
        simp
      rw [hy]
      have hconvlen : (conv (xs.take L) w).length = L + M - 1 := by
        rw [conv_length _ w htne hw, htlen, hM]
      have hovlen : ((conv (xs.take L) w).drop L).length = M - 1 := by
        rw [List.length_drop, hconvlen]
        omega
      rw [ih (xs.drop L) ((conv (xs.take L) w).drop L) (by omega) hbne hovlen]
      conv_rhs => rw [← List.take_append_drop L xs]
      rw [conv_append (xs.take L) (xs.drop L) w, htlen]
      rw [addLong_split ov L (by omega)
        (addLong (conv (xs.take L) w) (List.replicate L (0 : α) ++ conv (xs.drop L) w))]
      have hZtake : (addLong (conv (xs.take L) w)
          (List.replicate L (0 : α) ++ conv (xs.drop L) w)).take L
          = (conv (xs.take L) w).take L := by
        rw [addLong_take, List.take_append_eq_append_take, List.length_replicate,
          List.take_replicate, min_self, Nat.sub_self, List.take_zero, List.append_nil]
        rw [addLong_replicate_zero_right _ _
          (by rw [List.length_take, hconvlen]; omega)]
        rw [List.length_take, hconvlen, show min L (L + M - 1) = L by omega, Nat.sub_self]
        simp
      have hZdrop : (addLong (conv (xs.take L) w)
          (List.replicate L (0 : α) ++ conv (xs.drop L) w)).drop L
          = addLong ((conv (xs.take L) w).drop L) (conv (xs.drop L) w) := by
        rw [addLong_drop, List.drop_append_eq_append_drop, List.length_replicate,
          List.drop_replicate]
        simp
      rw [hZtake, hZdrop]

theorem mapLastOnly_congr (g g2 : List α → List α) (h : ∀ s, g s = g2 s) :
    ∀ segs : List (List α), mapLastOnly g segs = mapLastOnly g2 segs := by
  intro segs
  induction segs with
  | nil => rfl
  | cons s rest ih =>
    cases rest with
    | nil => simp [mapLastOnly, h]
    | cons s2 rest2 => simp only [mapLastOnly]; rw [ih]

theorem applyEnds_congr (f f2 g g2 : List α → List α) (hf : ∀ s, f s = f2 s)
    (hg : ∀ s, g s = g2 s) (segs : List (List α)) :
    applyEnds f g segs = applyEnds f2 g2 segs := by
  cases segs with
  | nil => rfl
  | cons s rest => simp only [applyEnds]; rw [hf, mapLastOnly_congr g g2 hg]

theorem mapLastOnly_flatten (g : List α → List α) :
    ∀ (segs : List (List α)) (h : segs ≠ []),
      (mapLastOnly g segs).flatten = segs.dropLast.flatten ++ g (segs.getLast h) := by
  intro segs
  induction segs with
  | nil => intro h; contradiction
  | cons s rest ih =>
    intro h
    cases rest with
    | nil => simp [mapLastOnly]
    | cons s2 rest2 =>
      simp only [mapLastOnly, List.flatten_cons]
      rw [ih (by simp)]
      rw [List.dropLast_cons₂, List.flatten_cons, List.append_assoc,
        List.getLast_cons (List.cons_ne_nil s2 rest2)]

theorem take_append_add (u v : List α) (m : ℕ) :
    (u ++ v).take (u.length + m) = u ++ v.take m := by
  rw [List.take_append_eq_append_take, List.take_of_length_le (by omega),
    Nat.add_sub_cancel_left]

theorem drop_append_le (u v : List α) (d : ℕ) (h : d ≤ u.length) :
    (u ++ v).drop d = u.drop d ++ v := by
  rw [List.drop_append_eq_append_drop, show d - u.length = 0 by omega, List.drop_zero]

theorem flatten_dropLast_getLast :
    ∀ (segs : List (List α)) (h : segs ≠ []),
      segs.flatten = segs.dropLast.flatten ++ segs.getLast h := by
  intro segs h
  conv_lhs => rw [← List.dropLast_append_getLast h]
  rw [List.flatten_append]
  simp

theorem flatten_applyEnds_trim (d e : ℕ) (s0 : List α) (rest : List (List α))
    (hr : rest ≠ []) (hd : d ≤ s0.length) (he : e ≤ (rest.getLast hr).length) :
    (applyEnds (fun s => s.drop d) (fun s => s.take (s.length - e)) (s0 :: rest)).flatten
      = ((s0 :: rest).flatten.take ((s0 :: rest).flatten.length - e)).drop d := by
  simp only [applyEnds, List.flatten_cons]
  rw [mapLastOnly_flatten _ rest hr]
  rw [flatten_dropLast_getLast rest hr]
  set K := rest.dropLast.flatten with hK
  set lst := rest.getLast hr with hlst
  have htot : (s0 ++ (K ++ lst)).length - e = s0.length + (K.length + (lst.length - e)) := by
    simp [List.length_append]
    omega
  rw [htot, take_append_add, take_append_add, drop_append_le _ _ d hd]

theorem oaSegs_ne_nil (nfft M L : ℕ) (w ov : List α) (cs : List (List α)) (hc : cs ≠ []) :
    oaSegs nfft M L w ov cs ≠ [] := by
  cases cs with
  | nil => contradiction
  | cons c rest => cases rest <;> simp [oaSegs]

theorem oaSegs_getLast_length_ge (nfft M L : ℕ) (w : List α) (hn : nfft = L + (M - 1)) :
    ∀ (cs : List (List α)) (ov : List α), ov.length = M - 1 →
      (hne : oaSegs nfft M L w ov cs ≠ []) →
      M - 1 ≤ ((oaSegs nfft M L w ov cs).getLast hne).length := by
  intro cs
  induction cs with
  | nil => intro ov _ hne; simp [oaSegs] at hne
  | cons c rest ih =>
    intro ov hov hne
    cases rest with
    | nil =>
      simp only [oaSegs, List.getLast_singleton, addLong_length, hov]
      omega
    | cons c2 rest2 =>
      simp only [oaSegs]
      rw [List.getLast_cons (oaSegs_ne_nil nfft M L w _ (c2 :: rest2) (by simp))]
      apply ih
      rw [List.length_drop, circConv, foldModN_length]
      omega

theorem oaconvolve_mode_slice (xs w : List α) (nfft : ℕ) (mode : Mode) (d e : ℕ)
    (hw : w ≠ []) (hnfft : 2 * w.length ≤ nfft) (hxs : nfft - w.length + 1 < xs.length)
    (hfirst : ∀ s : List α, oaModeFirst w.length mode s = s.drop d)
    (hlast : ∀ s : List α, oaModeLast w.length mode s = s.take (s.length - e))
    (hd : d ≤ w.length - 1) (he : e ≤ w.length - 1) :
    oaconvolveWith nfft xs w mode
      = some (((conv xs w).take ((xs.length + w.length - 1) - e)).drop d) := by
  have hM1 : 1 ≤ w.length := List.length_pos.mpr hw
  have hML : w.length - 1 ≤ nfft - w.length + 1 := by omega
  have hL1 : 1 ≤ nfft - w.length + 1 := by omega
  have hn : nfft = (nfft - w.length + 1) + (w.length - 1) := by omega
  have hne : xs ≠ [] := by
    apply List.length_pos.mp
    omega
  have hbne : xs.drop (nfft - w.length + 1) ≠ [] := by
    apply List.length_pos.mp
    rw [List.length_drop]
    omega
  have hcons := chunkList_cons (nfft - w.length + 1) xs hL1 hne
  have hrest_ne := chunkList_ne_nil (nfft - w.length + 1) (xs.drop (nfft - w.length + 1)) hL1 hbne
  obtain ⟨c2, r2, hc2⟩ : ∃ c2 r2,
      chunkList (nfft - w.length + 1) (xs.drop (nfft - w.length + 1)) = c2 :: r2 := by
    cases hh : chunkList (nfft - w.length + 1) (xs.drop (nfft - w.length + 1)) with
    | nil => exact absurd hh hrest_ne
    | cons a b => exact ⟨a, b, rfl⟩
  have hiflen : ¬ (chunkList (nfft - w.length + 1) xs).length = 1 := by
    rw [hcons, hc2]
    simp
  simp only [oaconvolveWith]
  rw [if_neg hiflen]
  congr 1
  rw [applyEnds_congr _ _ _ _ hfirst hlast]
  have hflat0 := oaSegs_join w w.length (nfft - w.length + 1) nfft rfl hw hML hL1 hn
    xs.length xs (List.replicate (w.length - 1) 0) le_rfl hne (by simp)
  rw [hcons, hc2] at hflat0 ⊢
  simp only [oaSegs] at hflat0 ⊢
  have hSne : oaSegs nfft w.length (nfft - w.length + 1) w
      ((circConv nfft (xs.take (nfft - w.length + 1) ++ List.replicate (w.length - 1) 0) w).drop
        (nfft - w.length + 1)) (c2 :: r2) ≠ [] :=
    oaSegs_ne_nil _ _ _ _ _ _ (by simp)
  have hAlen : d ≤ (addLong (List.replicate (w.length - 1) (0 : α))
      ((circConv nfft (xs.take (nfft - w.length + 1) ++ List.replicate (w.length - 1) 0) w).take
        (nfft - w.length + 1))).length := by
    rw [addLong_length, List.length_take, circConv, foldModN_length, List.length_replicate]
    omega
  have hlast_ge : e ≤ ((oaSegs nfft w.length (nfft - w.length + 1) w
      ((circConv nfft (xs.take (nfft - w.length + 1) ++ List.replicate (w.length - 1) 0) w).drop
        (nfft - w.length + 1)) (c2 :: r2)).getLast hSne).length := by
    have := oaSegs_getLast_length_ge nfft w.length (nfft - w.length + 1) w hn (c2 :: r2)
      ((circConv nfft (xs.take (nfft - w.length + 1) ++ List.replicate (w.length - 1) 0) w).drop
        (nfft - w.length + 1))
      (by rw [List.length_drop, circConv, foldModN_length]; omega) hSne
    omega
  rw [flatten_applyEnds_trim d e _ _ hSne hAlen hlast_ge]
  have hflat : (addLong (List.replicate (w.length - 1) (0 : α))
      ((circConv nfft (xs.take (nfft - w.length + 1) ++ List.replicate (w.length - 1) 0) w).take
        (nfft - w.length + 1)) :: oaSegs nfft w.length (nfft - w.length + 1) w
      ((circConv nfft (xs.take (nfft - w.length + 1) ++ List.replicate (w.length - 1) 0) w).drop
        (nfft - w.length + 1)) (c2 :: r2)).flatten = conv xs w := by
    rw [hflat0, addLong_replicate_zero_left _ _
      (by rw [conv_length xs w hne hw]; omega)]
  rw [hflat, conv_length xs w hne hw]

theorem sosfiltSection_append (s : Sos α) (a : List α) :
    ∀ (st : α × α) (b : List α),
      sosfiltSection s st (a ++ b)
        = ((sosfiltSection s st a).1 ++ (sosfiltSection s (sosfiltSection s st a).2 b).1,
           (sosfiltSection s (sosfiltSection s st a).2 b).2) := by
  induction a with
  | nil => intro st b; simp [sosfiltSection]
  | cons x a ih =>
    intro st b
    simp only [List.cons_append, sosfiltSection, List.append_eq, ih]

theorem sosfiltCascade_append (ss : List (Sos α)) :
    ∀ (zs : List (α × α)) (a b : List α),
      sosfiltCascade ss zs (a ++ b)
        = ((sosfiltCascade ss zs a).1 ++ (sosfiltCascade ss (sosfiltCascade ss zs a).2 b).1,
           (sosfiltCascade ss (sosfiltCascade ss zs a).2 b).2) := by
  induction ss with
  | nil => intro zs a b; simp [sosfiltCascade]
  | cons s ss ih =>
    intro zs a b
    cases zs with
    | nil => simp [sosfiltCascade]
    | cons z zs =>
      simp only [sosfiltCascade, sosfiltSection_append, ih]

theorem sosfiltChunks_eq_cascade (ss : List (Sos α)) :
    ∀ (chunks : List (List α)) (z : List (α × α)),
      sosfiltChunks ss z chunks = (sosfiltCascade ss z chunks.flatten).1 := by
  intro chunks
  induction chunks with
  | nil =>
    intro z
    have hnil : ∀ (ss2 : List (Sos α)) (z2 : List (α × α)),
        (sosfiltCascade ss2 z2 ([] : List α)).1 = [] := by
      intro ss2
      induction ss2 with
      | nil => intro z2; rfl
      | cons s2 rest ih2 =>
        intro z2
        cases z2 with
        | nil => rfl
        | cons z3 zs3 => simp only [sosfiltCascade, sosfiltSection]; exact ih2 zs3
    simp [sosfiltChunks, hnil]
  | cons c rest ih =>
    intro z
    simp only [sosfiltChunks, List.flatten_cons, sosfiltCascade_append, ih]

theorem emitAux_congr :
    ∀ (f1 f2 nfft stride : ℕ) (q : List α), q.length < f1 → q.length < f2 →
      emitAux f1 nfft stride q = emitAux f2 nfft stride q := by
  intro f1
  induction f1 with
  | zero => intro f2 nfft stride q h1; omega
  | succ f1 ih =>
    intro f2 nfft stride q h1 h2
    cases f2 with
    | zero => omega
    | succ f2 =>
      simp only [emitAux]
      by_cases hc : nfft ≤ q.length ∧ 0 < nfft ∧ 0 < stride
      · rw [if_pos hc, if_pos hc, ih f2 nfft stride (q.drop stride)
          (by rw [List.length_drop]; omega) (by rw [List.length_drop]; omega)]
      · rw [if_neg hc, if_neg hc]

theorem emitWindows_pos (nfft stride : ℕ) (q : List α)
    (h : nfft ≤ q.length ∧ 0 < nfft ∧ 0 < stride) :
    emitWindows nfft stride q
      = (q.take nfft :: (emitWindows nfft stride (q.drop stride)).1,
         (emitWindows nfft stride (q.drop stride)).2) := by
  conv_lhs => rw [emitWindows]
  rw [show emitAux (q.length + 1) nfft stride q
      = if nfft ≤ q.length ∧ 0 < nfft ∧ 0 < stride then
          (q.take nfft :: (emitAux q.length nfft stride (q.drop stride)).1,
           (emitAux q.length nfft stride (q.drop stride)).2)
        else ([], q) from rfl]
  rw [if_pos h]
  rw [emitAux_congr q.length ((q.drop stride).length + 1) nfft stride (q.drop stride)
    (by rw [List.length_drop]; omega) (by omega)]
  rfl

theorem emitWindows_neg (nfft stride : ℕ) (q : List α)
    (h : ¬(nfft ≤ q.length ∧ 0 < nfft ∧ 0 < stride)) :
    emitWindows nfft stride q = ([], q) := by
  rw [emitWindows]
  rw [show emitAux (q.length + 1) nfft stride q
      = if nfft ≤ q.length ∧ 0 < nfft ∧ 0 < stride then
          (q.take nfft :: (emitAux q.length nfft stride (q.drop stride)).1,
           (emitAux q.length nfft stride (q.drop stride)).2)
        else ([], q) from rfl]
  rw [if_neg h]

theorem drain_emit_append (nfft stride : ℕ) (hs : stride ≤ nfft) :
    ∀ (n : ℕ) (q c : List α), q.length ≤ n →
      drainWindows nfft stride (q ++ c)
        = (emitWindows nfft stride q).1 ++
            drainWindows nfft stride ((emitWindows nfft stride q).2 ++ c) := by
  intro n
  induction n with
  | zero =>
    intro q c h
    have hq : q = [] := List.length_eq_zero.mp (by omega)
    subst hq
    rw [emitWindows_neg nfft stride [] (by simp; omega)]
    simp
  | succ n ih =>
    intro q c h
    by_cases hc : nfft ≤ q.length ∧ 0 < nfft ∧ 0 < stride
    · have hqc : nfft ≤ (q ++ c).length ∧ 0 < nfft ∧ 0 < stride := by
        rw [List.length_append]
        exact ⟨by omega, hc.2⟩
      rw [drainWindows, emitWindows_pos nfft stride (q ++ c) hqc,
        emitWindows_pos nfft stride q hc]
      have htake : (q ++ c).take nfft = q.take nfft := by
        rw [List.take_append_eq_append_take, show nfft - q.length = 0 by omega,
          List.take_zero, List.append_nil]
      have hdrop : (q ++ c).drop stride = q.drop stride ++ c :=
        drop_append_le q c stride (by omega)
      rw [htake, hdrop]
      simp only [List.cons_append]
      congr 1
      exact ih (q.drop stride) c (by rw [List.length_drop]; omega)
    · rw [emitWindows_neg nfft stride q hc]
      simp
  

theorem fifoProcess_eq_drain (nfft stride : ℕ) (hs : stride ≤ nfft) :
    ∀ (chunks : List (List α)) (q : List α),
      fifoProcess nfft stride q chunks = drainWindows nfft stride (q ++ chunks.flatten) := by
  intro chunks
  induction chunks with
  | nil => intro q; simp [fifoProcess]
  | cons c rest ih =>
    intro q
    simp only [fifoProcess, List.flatten_cons, ih]
    rw [drain_emit_append nfft stride hs q.length q (c ++ rest.flatten) le_rfl,
      List.append_assoc]

theorem drainWindows_count (nfft stride : ℕ) (h1 : 0 < nfft) (h2 : 0 < stride) :
    ∀ (n : ℕ) (q : List α), q.length ≤ n → nfft ≤ q.length →
      (drainWindows nfft stride q).length = (q.length - nfft) / stride + 1 := by
  intro n
  induction n with
  | zero => intro q hn hq; omega
  | succ n ih =>
    intro q hn hq
    rw [drainWindows, emitWindows_pos nfft stride q ⟨hq, h1, h2⟩]
    simp only [List.length_cons]
    rcases le_or_lt nfft ((q.drop stride).length) with hge | hlt
    · have hrec := ih (q.drop stride) (by rw [List.length_drop]; omega) hge
      simp only [drainWindows] at hrec
      rw [hrec, List.length_drop]
      have hstep : (q.length - nfft) / stride = (q.length - stride - nfft) / stride + 1 := by
        rw [show q.length - stride - nfft = (q.length - nfft) - stride by omega]
        rw [List.length_drop] at hge
        exact Nat.div_eq_sub_div h2 (by omega)
      omega
    · have hempty := emitWindows_neg nfft stride (q.drop stride) (by intro hcon; omega)
      rw [hempty]
      simp only [List.length_nil]
      rw [List.length_drop] at hlt
      rw [Nat.div_eq_of_lt (by omega)]

theorem drainWindows_window_length (nfft stride : ℕ) :
    ∀ (n : ℕ) (q : List α), q.length ≤ n →
      ∀ s ∈ drainWindows nfft stride q, s.length = nfft := by
  intro n
  induction n with
  | zero =>
    intro q hn s hs
    have hq : q = [] := List.length_eq_zero.mp (by omega)
    subst hq
    rw [drainWindows, emitWindows_neg nfft stride [] (by simp; omega)] at hs
    simp at hs
  | succ n ih =>
    intro q hn s hs
    by_cases hc : nfft ≤ q.length ∧ 0 < nfft ∧ 0 < stride
    · rw [drainWindows, emitWindows_pos nfft stride q hc] at hs
      rcases List.mem_cons.mp hs with heq | hmem
      · rw [heq, List.length_take]
        omega
      · exact ih (q.drop stride) (by rw [List.length_drop]; omega) s hmem
    · rw [drainWindows, emitWindows_neg nfft stride q hc] at hs
      simp at hs

theorem doubleSpectrum_getD (nfft : ℕ) (hn : 0 < nfft) (s : List α)
    (hlen : s.length = nfft / 2 + 1) (k : ℕ) (hk : k < s.length) :
    (doubleSpectrum nfft s).getD k 0
      = (if k = 0 ∨ (nfft % 2 = 0 ∧ k = nfft / 2) then 1 else 2) * s.getD k 0 := by
  have hs1 : 1 ≤ s.length := by omega
  have hsome : s[k]? = some s[k] := List.getElem?_eq_getElem hk
  by_cases hp : nfft % 2 = 1
  · rw [doubleSpectrum, if_pos hp]
    rcases Nat.eq_zero_or_pos k with hk0 | hkpos
    · subst hk0
      rw [List.getD_eq_getElem?_getD,
        List.getElem?_append_left (by rw [List.length_take]; omega),
        List.getElem?_take_of_lt (by omega), hsome, if_pos (Or.inl rfl),
        List.getD_eq_getElem?_getD, hsome]
      simp
    · rw [List.getD_eq_getElem?_getD,
        List.getElem?_append_right (by rw [List.length_take]; omega),
        List.length_take, show min 1 s.length = 1 by omega,
        List.getElem?_map, List.getElem?_drop, show 1 + (k - 1) = k by omega, hsome,
        if_neg (by omega), List.getD_eq_getElem?_getD, hsome]
      simp
  · have hp0 : nfft % 2 = 0 := by omega
    have hs2 : 2 ≤ s.length := by
      have : 2 ≤ nfft := by omega
      have : 1 ≤ nfft / 2 := by omega
      omega
    rw [doubleSpectrum, if_neg (by omega)]
    have hmaplen : (((s.drop 1).take (s.length - 2)).map fun v => 2 * v).length
        = s.length - 2 := by
      rw [List.length_map, List.length_take, List.length_drop]
      omega
    have houter : ((s.take 1 ++ ((s.drop 1).take (s.length - 2)).map fun v => 2 * v)).length
        = s.length - 1 := by
      rw [List.length_append, List.length_take, hmaplen]
      omega
    rcases Nat.eq_zero_or_pos k with hk0 | hkpos
    · subst hk0
      rw [List.getD_eq_getElem?_getD,
        List.getElem?_append_left (by rw [houter]; omega),
        List.getElem?_append_left (by rw [List.length_take]; omega),
        List.getElem?_take_of_lt (by omega), hsome, if_pos (Or.inl rfl),
        List.getD_eq_getElem?_getD, hsome]
      simp
    · rcases lt_or_le k (s.length - 1) with hmid | hlast
      · rw [List.getD_eq_getElem?_getD,
          List.getElem?_append_left (by rw [houter]; omega),
          List.getElem?_append_right (by rw [List.length_take]; omega),
          List.length_take, show min 1 s.length = 1 by omega,
          List.getElem?_map, List.getElem?_take_of_lt (by omega),
          List.getElem?_drop, show 1 + (k - 1) = k by omega, hsome,
          if_neg (by omega), List.getD_eq_getElem?_getD, hsome]
        simp
      · rw [List.getD_eq_getElem?_getD,
          List.getElem?_append_right (by rw [houter]; omega),
          houter, List.getElem?_drop,
          show s.length - 1 + (k - (s.length - 1)) = k by omega, hsome,
          if_pos (Or.inr ⟨hp0, by omega⟩), List.getD_eq_getElem?_getD, hsome]
        simp

theorem workingChunksize_eq (N c M : ℕ) (hM : 0 < M) :
    workingChunksize N c M = M * ((min c (N / 3) + M - 1) / M) := by
  unfold workingChunksize
  have hcap : (if N / 3 < c then N / 3 else c) = min c (N / 3) := by
    split_ifs with h <;> omega
  rw [hcap]
  by_cases hr : min c (N / 3) % M > 0
  · rw [if_pos hr, Nat.mul_comm]
  · rw [if_neg hr]
    have hr0 : min c (N / 3) % M = 0 := by omega
    obtain ⟨q, hq⟩ : M ∣ min c (N / 3) := Nat.dvd_of_mod_eq_zero hr0
    rw [hq, show M * q + M - 1 = M * q + (M - 1) by omega, Nat.mul_add_div hM,
      Nat.div_eq_of_lt (by omega)]
    simp

theorem le_mul_ceil_div (x M : ℕ) (hM : 0 < M) : x ≤ M * ((x + M - 1) / M) := by
  have hdm := Nat.div_add_mod x M
  have hr : x % M < M := Nat.mod_lt _ hM
  rw [show x + M - 1 = M * (x / M) + (x % M + M - 1) by omega, Nat.mul_add_div hM]
  rcases Nat.eq_zero_or_pos (x % M) with h0 | hpos
  · rw [h0, show (0 + M - 1) / M = 0 from Nat.div_eq_of_lt (by omega), Nat.mul_add]
    omega
  · rw [show (x % M + M - 1) / M = 1 from Nat.div_eq_of_lt_le (by omega) (by omega),
      Nat.mul_add]
    omega

theorem mul_ceil_div_le (x M : ℕ) (hM : 0 < M) : M * ((x + M - 1) / M) ≤ x + M - 1 := by
  rw [Nat.mul_comm]
  exact Nat.div_mul_le_self _ _

/-- C1 (amended): for every signal, every kernel of length M >= 1 and every
mode, provided the signal spans more than one internal block
(xs.length > nfft - M + 1, for any FFT block size nfft >= 2*M, which the
optimal_nffts choice always satisfies) and, for mode same, M is odd, the
concatenation of the chunks yielded by oaconvolve equals the single-pass
discrete convolution of the whole unchunked signal with the kernel under
that mode (conv followed by convolve_slicer), independent of the producer
chunksize (which oaconvolve overrides with the block stride L) and of the
internal FFT block size. -/
theorem oaconvolve_eq_single_pass (xs w : List α) (nfft : ℕ) (mode : Mode)
    (hw : w ≠ []) (hnfft : 2 * w.length ≤ nfft)
    (hxs : nfft - w.length + 1 < xs.length)
    (hsame : mode = Mode.same → w.length % 2 = 1) :
    oaconvolveWith nfft xs w mode
      = some (convolve_slicer (conv xs w) xs.length w.length mode) := by
  have hM1 : 1 ≤ w.length := List.length_pos.mpr hw
  have hMN : w.length ≤ xs.length := by omega
  have hne : xs ≠ [] := by
    apply List.length_pos.mp
    omega
  have hlen := conv_length xs w hne hw
  cases mode with
  | full =>
    rw [oaconvolve_mode_slice xs w nfft Mode.full 0 0 hw hnfft hxs
      (fun s => by simp [oaModeFirst]) (fun s => by simp [oaModeLast])
      (by omega) (by omega)]
    simp only [convolve_slicer]
    rw [Nat.sub_zero, List.drop_zero, ← hlen, List.take_length]
  | same =>
    have hodd : w.length % 2 = 1 := hsame rfl
    rw [oaconvolve_mode_slice xs w nfft Mode.same ((w.length - 1) / 2) ((w.length - 1) / 2)
      hw hnfft hxs (fun s => by simp [oaModeFirst]) (fun s => by simp [oaModeLast])
      (by omega) (by omega)]
    simp only [convolve_slicer, slice_along_axis]
    rw [show min xs.length w.length = w.length by omega,
      show max xs.length w.length = xs.length by omega,
      show xs.length + w.length - 1 - (w.length - 1) / 2
        = (w.length - 1) / 2 + xs.length by omega]
  | valid =>
    rw [oaconvolve_mode_slice xs w nfft Mode.valid (w.length - 1) (w.length - 1)
      hw hnfft hxs (fun s => by simp [oaModeFirst]) (fun s => by simp [oaModeLast])
      (by omega) (by omega)]
    simp only [convolve_slicer, slice_along_axis]
    rw [show min xs.length w.length = w.length by omega,
      show xs.length + w.length - 1 - (w.length - 1)
        = w.length + xs.length - 1 - (w.length - 1) by omega]

/-- C1 witness: the amended theorem applied at a concrete two-block input. -/
theorem oaconvolve_eq_single_pass_witness :
    oaconvolveWith 4 [1, 2, 3, 4] [(1 : ℤ), 1] Mode.full
      = some (convolve_slicer (conv [1, 2, 3, 4] [(1 : ℤ), 1]) 4 2 Mode.full) :=
  oaconvolve_eq_single_pass [1, 2, 3, 4] [(1 : ℤ), 1] 4 Mode.full (by decide)
    (by decide) (by decide) (fun h => absurd h (by decide))

/-- C1 counterexample: for the even kernel [1, 1] in mode same, the
concatenated oaconvolve output over a 16-sample signal (two internal blocks,
nfft = optimal_nffts 2 = 16) differs from the single-pass convolution under
mode same (it keeps 17 samples instead of 16). -/
theorem oaconvolve_same_even_kernel_cex :
    oaconvolve (List.replicate 16 (1 : ℤ)) [1, 1] Mode.same
      ≠ some (convolve_slicer (conv (List.replicate 16 (1 : ℤ)) [1, 1]) 16 2 Mode.same) := by
  decide

/-- C2: a 4-sample signal with the kernel [1] (nfft = 8, block stride L = 8)
fits in a single internal FFT block, and the oaconvolve generator raises
UnboundLocalError (embedded as none) instead of yielding output of the
stated length. -/
theorem oaconvolve_single_block_raises :
    oaconvolve (List.replicate 4 (1 : ℤ)) [1] Mode.full = none := by
  decide

/-- C3: concatenating the chunks yielded by sosfilt over any chunking of the
signal with zero initial state equals applying the SOS cascade with zero
initial state to the whole signal in a single pass. -/
theorem sosfilt_chunked_eq_whole (ss : List (Sos α)) (xs : List α)
    (chunks : List (List α)) (hjoin : chunks.flatten = xs) :
    sosfilt ss chunks
      = (sosfiltCascade ss (List.replicate ss.length ((0 : α), (0 : α))) xs).1 := by
  rw [sosfilt, sosfiltChunks_eq_cascade, hjoin]

/-- C3 witness: a one-section filter over a signal split into two chunks. -/
theorem sosfilt_chunked_eq_whole_witness :
    sosfilt [Sos.mk (1 : ℤ) 1 0 1 0] [[1], [2, 3]]
      = (sosfiltCascade [Sos.mk (1 : ℤ) 1 0 1 0]
          (List.replicate 1 ((0 : ℤ), (0 : ℤ))) [1, 2, 3]).1 :=
  sosfilt_chunked_eq_whole [Sos.mk (1 : ℤ) 1 0 1 0] [1, 2, 3] [[1], [2, 3]] (by decide)

/-- C4: with nfft = 5, overlap = 0.4 (stride 3) and the 9-sample signal
0..8, stft with padded = true pads nothing (9 is divisible by the stride)
and emits exactly two windows, neither of which contains the last input
sample 8: the claimed full coverage fails. -/
theorem stft_padded_drops_last_sample :
    (8 : ℤ) ∈ ([0, 1, 2, 3, 4, 5, 6, 7, 8] : List ℤ)
    ∧ (∀ seg ∈ stftSegments ([0, 1, 2, 3, 4, 5, 6, 7, 8] : List ℤ) 5 (2/5) false true,
        (8 : ℤ) ∉ seg)
    ∧ (stftSegments ([0, 1, 2, 3, 4, 5, 6, 7, 8] : List ℤ) 5 (2/5) false true).length = 2 := by
  have h : strideOf 5 (2/5) = 3 := by
    unfold strideOf noverlapOf
    norm_num
    decide
  refine ⟨by decide, ?_, ?_⟩
  · simp only [stftSegments, h]
    decide
  · simp only [stftSegments, h]
    decide

/-- C5: over any chunking of a signal with at least nfft samples, welch
emits exactly floor((N - nfft) / stride) + 1 windows with
stride = nfft - floor(nfft * overlap), every emitted window holds exactly
nfft samples, and the frequency vector has nfft / 2 + 1 entries. -/
theorem welch_window_count (xs : List α) (chunks : List (List α)) (nfft : ℕ)
    (overlap fs : ℚ) (hjoin : chunks.flatten = xs) (h1 : 0 < nfft)
    (hov0 : 0 ≤ overlap) (hov1 : overlap < 1) (hN : nfft ≤ xs.length) :
    (welchWindows chunks nfft overlap).length
        = (xs.length - nfft) / strideOf nfft overlap + 1
    ∧ (∀ s ∈ welchWindows chunks nfft overlap, s.length = nfft)
    ∧ (rfftfreq nfft fs).length = nfft / 2 + 1 := by
  have hnov : noverlapOf nfft overlap < nfft := by
    unfold noverlapOf
    have hmul : (nfft : ℚ) * overlap < (nfft : ℚ) := by
      calc (nfft : ℚ) * overlap < (nfft : ℚ) * 1 :=
            mul_lt_mul_of_pos_left hov1 (by exact_mod_cast h1)
        _ = (nfft : ℚ) := mul_one _
    have hfl : ⌊(nfft : ℚ) * overlap⌋ < (nfft : ℤ) :=
      Int.floor_lt.mpr (by exact_mod_cast hmul)
    have h0 : 0 ≤ ⌊(nfft : ℚ) * overlap⌋ :=
      Int.floor_nonneg.mpr (mul_nonneg (by positivity) hov0)
    omega
  have hstride : 0 < strideOf nfft overlap := by
    unfold strideOf
    omega
  have hstride2 : strideOf nfft overlap ≤ nfft := by
    unfold strideOf
    omega
  refine ⟨?_, ?_, ?_⟩
  · rw [welchWindows, fifoProcess_eq_drain nfft _ hstride2 chunks [], List.nil_append, hjoin]
    exact drainWindows_count nfft _ h1 hstride xs.length xs le_rfl hN
  · intro s hs
    rw [welchWindows, fifoProcess_eq_drain nfft _ hstride2 chunks [], List.nil_append,
      hjoin] at hs
    exact drainWindows_window_length nfft _ xs.length xs le_rfl s hs
  · rw [rfftfreq, List.length_map, List.length_range]

/-- C5 witness: the instance nfft = 1000, overlap = 0.5, N = 10000 emits
exactly 19 windows and the frequency vector has 501 entries. -/
theorem welch_window_count_witness :
    (welchWindows [List.replicate 10000 (0 : ℤ)] 1000 (1/2)).length = 19
    ∧ (rfftfreq 1000 500).length = 501 := by
  have hs : strideOf 1000 (1/2) = 500 := by
    unfold strideOf noverlapOf
    norm_num
    decide
  have h := welch_window_count (List.replicate 10000 (0 : ℤ))
    [List.replicate 10000 (0 : ℤ)] 1000 (1/2) 500
    (by rw [List.flatten_cons, List.flatten_nil, List.append_nil]) (by norm_num)
    (by norm_num) (by norm_num) (by rw [List.length_replicate]; omega)
  constructor
  · rw [h.1, List.length_replicate, hs]
  · rw [h.2.2]

/-- C6 counterexample: with an invalid mode string, the first event of the
oaconvolve generator run (here over 3 chunks) is the read and processing of
an input chunk, and the ValueError from the mode check only comes after it:
the error is not raised before any chunk of input is processed. -/
theorem invalid_mode_after_read_cex :
    (oaconvolveTrace false 3).take 1 = [Ev.read]
    ∧ Ev.raise ∈ oaconvolveTrace false 3 := by
  decide

/-- C6 (amended): an invalid mode or scaling string raises while computing
the first output, after input chunks have been read but before any output is
yielded, so the failure never interrupts a partially emitted stream; only
the decimation-factor check of polyphase_resample fires before any input
chunk is read (its trace is just the raise). -/
theorem errors_before_any_yield :
    (∀ n : ℕ, Ev.yield ∉ oaconvolveTrace false n)
    ∧ (∀ (nfft q : ℕ) (lens : List ℕ), Ev.yield ∉ spectraTraceBadScaling nfft q lens)
    ∧ (∀ (M N : ℕ) (body : List Ev), N ≤ M → polyphaseTrace M N body = [Ev.raise]) := by
  refine ⟨?_, ?_, ?_⟩
  · intro n
    unfold oaconvolveTrace
    by_cases hn : n = 0
    · rw [if_pos hn]
      simp
    · rw [if_neg hn, if_pos rfl]
      decide
  · intro nfft q lens
    induction lens generalizing q with
    | nil =>
      unfold spectraTraceBadScaling
      split_ifs <;> decide
    | cons c rest ih =>
      simp only [spectraTraceBadScaling, List.mem_cons, not_or]
      refine ⟨by decide, ?_⟩
      split_ifs with h
      · decide
      · exact ih (q + c)
  · intro M N body h
    unfold polyphaseTrace
    rw [if_pos h]

/-- C6 witness: the amended theorem applied at concrete runs. -/
theorem errors_before_any_yield_witness :
    Ev.yield ∉ oaconvolveTrace false 2
    ∧ Ev.yield ∉ spectraTraceBadScaling 4 0 [5]
    ∧ polyphaseTrace 5 3 [] = [Ev.raise] :=
  ⟨errors_before_any_yield.1 2, errors_before_any_yield.2.1 4 0 [5],
    errors_before_any_yield.2.2 5 3 [] (by decide)⟩

/-- C7: for every one-sided squared DFT input of length nfft / 2 + 1, the
periodogram keeps the DC bin (and, for even nfft, the Nyquist bin k = nfft/2)
and doubles every other frequency bin of the squared magnitude. -/
theorem periodogram_doubling (nfft : ℕ) (dft : List (α × α)) (hn : 0 < nfft)
    (hlen : dft.length = nfft / 2 + 1) (k : ℕ) (hk : k < dft.length) :
    (periodogram nfft dft).getD k 0
      = (if k = 0 ∨ (nfft % 2 = 0 ∧ k = nfft / 2) then 1 else 2)
          * ((dft.map fun z => z.1 ^ 2 + z.2 ^ 2).getD k 0) := by
  rw [periodogram]
  exact doubleSpectrum_getD nfft hn _ (by simpa using hlen) k (by simpa using hk)

/-- C7 witness: a concrete even-nfft spectrum, interior bin doubled. -/
theorem periodogram_doubling_witness :
    (periodogram 4 [((1 : ℤ), 0), (2, 1), (0, 3)]).getD 1 0
      = (if 1 = 0 ∨ (4 % 2 = 0 ∧ 1 = 4 / 2) then 1 else 2)
          * (([((1 : ℤ), 0), (2, 1), (0, 3)].map fun z => z.1 ^ 2 + z.2 ^ 2).getD 1 0) :=
  periodogram_doubling 4 [((1 : ℤ), 0), (2, 1), (0, 3)] (by decide) (by decide) 1 (by decide)

/-- C8 counterexample: for requested chunksize 1000, M = 3 and N = 9000 the
working chunk size is 1002, yet 999 is a multiple of 3 strictly closer to
1000, so the working chunk size is not the nearest multiple of M. -/
theorem workingChunksize_not_nearest_cex :
    workingChunksize 9000 1000 3 = 1002 ∧ 999 % 3 = 0 ∧ 1000 - 999 < 1002 - 1000 := by
  decide

/-- C8 (amended): the working chunk size is the smallest multiple of M at or
above min(chunksize, N / 3) - the capped request rounded up, not to the
nearest multiple - hence divisible by M and exceeding N / 3 by at most
M - 1. -/
theorem workingChunksize_rounds_up (N c M : ℕ) (hM : 0 < M) :
    M ∣ workingChunksize N c M
    ∧ workingChunksize N c M = M * ((min c (N / 3) + M - 1) / M)
    ∧ min c (N / 3) ≤ workingChunksize N c M
    ∧ workingChunksize N c M ≤ N / 3 + (M - 1) := by
  have heq := workingChunksize_eq N c M hM
  refine ⟨⟨_, heq⟩, heq, ?_, ?_⟩
  · rw [heq]
    exact le_mul_ceil_div _ M hM
  · rw [heq]
    have h1 := mul_ceil_div_le (min c (N / 3)) M hM
    have h2 : min c (N / 3) ≤ N / 3 := min_le_right _ _
    omega

/-- C8 witness: the amended theorem at the chunksize 1000, M = 3, N = 9000
instance. -/
theorem workingChunksize_rounds_up_witness :
    3 ∣ workingChunksize 9000 1000 3
    ∧ workingChunksize 9000 1000 3 = 3 * ((min 1000 (9000 / 3) + 3 - 1) / 3)
    ∧ min 1000 (9000 / 3) ≤ workingChunksize 9000 1000 3
    ∧ workingChunksize 9000 1000 3 ≤ 9000 / 3 + (3 - 1) :=
  workingChunksize_rounds_up 9000 1000 3 (by decide)

/-- C9: when the consumer drives the oaconvolve generator to stream
exhaustion (more pulls than segments, on a run that does not hit the
single-segment crash), the producer record afterwards equals the original:
the chunksize is restored exactly and no other attribute is changed. -/
theorem oaconvolve_restores_chunksize (p : Producer α) (w : List α) (pulls : ℕ)
    (hdone : oaNsegs p w < pulls) (hmulti : oaNsegs p w ≠ 1) :
    oaProducerAfter p w pulls = p := by
  unfold oaProducerAfter
  rw [if_neg (by omega), if_neg hmulti, if_neg (by omega)]

/-- C9 witness: a 20-sample producer, kernel of length 1 (3 segments),
drained with 4 pulls. -/
theorem oaconvolve_restores_chunksize_witness :
    oaProducerAfter (⟨List.replicate 20 (0 : ℤ), 7, 0⟩ : Producer ℤ) [1] 4
      = (⟨List.replicate 20 (0 : ℤ), 7, 0⟩ : Producer ℤ) :=
  oaconvolve_restores_chunksize _ [1] 4 (by decide) (by decide)

/-- C10: if the consumer stops before exhaustion (between 1 and nsegments
pulls), the producer chunksize is left at the internal block stride
L = optimal_nffts(M) - M + 1, a value derived from the kernel length; the
original chunksize is written back only on the completed-iteration path. -/
theorem oaconvolve_early_stop_chunksize (p : Producer α) (w : List α) (pulls : ℕ)
    (h1 : 1 ≤ pulls) (h2 : pulls ≤ oaNsegs p w) :
    (oaProducerAfter p w pulls).chunksize
      = optimal_nffts w.length - w.length + 1 := by
  unfold oaProducerAfter
  rw [if_neg (by omega)]
  by_cases hseg : oaNsegs p w = 1
  · rw [if_pos hseg]
    rfl
  · rw [if_neg hseg, if_pos h2]
    rfl

/-- C10 witness: stopping after 2 of 3 segments leaves the chunksize at the
block stride 8, not the original 7. -/
theorem oaconvolve_early_stop_chunksize_witness :
    (oaProducerAfter (⟨List.replicate 20 (0 : ℤ), 7, 0⟩ : Producer ℤ) [1] 2).chunksize
      = optimal_nffts 1 - 1 + 1
    ∧ optimal_nffts 1 - 1 + 1 ≠ 7 :=
  ⟨oaconvolve_early_stop_chunksize _ [1] 2 (by decide) (by decide), by decide⟩
